import Mathlib

/-!
Verification of the address-representation engine of `incidr.py`.

The program parses an IPv4 specification string (dotted quad, decimal
integer, hex string, bare mask length, optionally `base/mask`) into a
`Net` value holding 4 raw bytes and four textual representations, and
supports a byte-wise AND with another `Net` to compute a masked result.

The embedding below translates the source faithfully:
 - `mkNet` embeds `Net.__init__` (dispatch on `/` and `.`, digit and hex
   token classification, mask construction and masked-result computation);
 - `bits2int` embeds the module-level `bits2int`;
 - `coreAnd` / `netAnd` embed `Net.__and__`;
 - `coreStr` / `netStr` embed `Net.__str__`;
 - `inet_aton` models the libc routine `inet_aton(3)` that
   `socket.inet_aton` delegates to (numeric parts in decimal, octal or
   `0x` hex, 1 to 4 dot-separated parts, BSD-style digit handling), and
   the dotted-quad text produced by `socket.inet_ntoa` is modelled as the
   canonical `a.b.c.d` decimal rendering.

Machine integers are `Nat`; byte sequences are `List Nat` (big-endian,
each entry below 256); fallible construction returns `Except NetError`.
-/

/-- ASCII decimal digit test (models the character class used by the
source's regular expressions on the inputs it receives). -/
def isDig (c : Char) : Bool := 48 ≤ c.toNat && c.toNat ≤ 57

/-- ASCII case-insensitive hex digit test (models `(?i)[0-9a-f]`). -/
def isHexC (c : Char) : Bool :=
  isDig c || (97 ≤ c.toNat && c.toNat ≤ 102) || (65 ≤ c.toNat && c.toNat ≤ 70)

/-- Value of an ASCII decimal digit character. -/
def chVal (c : Char) : Nat := c.toNat - 48

/-- Value of an ASCII hex digit character (either case). -/
def hexCharVal (c : Char) : Nat :=
  if 48 ≤ c.toNat && c.toNat ≤ 57 then c.toNat - 48
  else if 97 ≤ c.toNat && c.toNat ≤ 102 then c.toNat - 87
  else if 65 ≤ c.toNat && c.toNat ≤ 70 then c.toNat - 55
  else 0

/-- The decimal digit character for a value below 10. -/
def digitCh (d : Nat) : Char :=
  match d with
  | 0 => '0'
  | 1 => '1'
  | 2 => '2'
  | 3 => '3'
  | 4 => '4'
  | 5 => '5'
  | 6 => '6'
  | 7 => '7'
  | 8 => '8'
  | 9 => '9'
  | _ => '?'

/-- The lowercase hex digit character for a value below 16 (as printed by
the `{:08x}` format). -/
def hexDig (d : Nat) : Char :=
  match d with
  | 10 => 'a'
  | 11 => 'b'
  | 12 => 'c'
  | 13 => 'd'
  | 14 => 'e'
  | 15 => 'f'
  | n => digitCh n

/-- Fuel-indexed base-`b` rendering of a natural number, most significant
digit first; `toBase` instantiates the fuel so it never runs out. -/
def toBaseAux (b : Nat) (dig : Nat → Char) : Nat → Nat → List Char
  | 0, _ => []
  | f + 1, n => if n < b then [dig n] else toBaseAux b dig f (n / b) ++ [dig (n % b)]

/-- Base-`b` rendering of a natural number (`"0"` for zero, no leading
zeros otherwise), as produced by Python number formatting. -/
def toBase (b : Nat) (dig : Nat → Char) (n : Nat) : List Char :=
  toBaseAux b dig (n + 1) n

/-- Decimal rendering, as produced by `str` / `{:d}`. -/
def decToChars (n : Nat) : List Char := toBase 10 digitCh n

/-- Lowercase hex rendering, as produced by `{:x}`. -/
def hexToChars (n : Nat) : List Char := toBase 16 hexDig n

/-- Binary rendering, as produced by `{:b}`. -/
def binToChars (n : Nat) : List Char := toBase 2 digitCh n

/-- Numeric value of a decimal digit string (the way `int` and `strtoul`
accumulate digits in base 10). -/
def decVal (cs : List Char) : Nat := cs.foldl (fun a c => 10 * a + chVal c) 0

/-- Numeric value of a hex digit string (base 16 accumulation). -/
def hexVal (cs : List Char) : Nat := cs.foldl (fun a c => 16 * a + hexCharVal c) 0

/-- Numeric value of a digit string read with base-8 weights; as in the
BSD `inet_aton` digit loop the digits 8 and 9 are still accepted. -/
def octVal (cs : List Char) : Nat := cs.foldl (fun a c => 8 * a + chVal c) 0

/-- Numeric value of a binary digit string (what `int(s, 2)` computes on
the all-`0`/`1` strings `bits2int` builds). -/
def binVal (cs : List Char) : Nat := cs.foldl (fun a c => 2 * a + chVal c) 0

/-- Left-pad with `'0'` to width `w` (the `{:0Nd}` / `{:0Nx}` / `{:0Nb}`
format paddings). -/
def zfill (w : Nat) (cs : List Char) : List Char :=
  List.replicate (w - cs.length) '0' ++ cs

/-- Right-align by left-padding with spaces to width `w` (the `{:>3}`
format). -/
def padSp (w : Nat) (cs : List Char) : List Char :=
  List.replicate (w - cs.length) ' ' ++ cs

/-- Join character lists with a separator (Python `sep.join`). -/
def joinSep (sep : List Char) : List (List Char) → List Char
  | [] => []
  | [p] => p
  | p :: ps => p ++ sep ++ joinSep sep ps

/-- Split a character list at every occurrence of `sep` (Python
`str.split(sep)` on a single character). -/
def splitOnC (sep : Char) : List Char → List (List Char)
  | [] => [[]]
  | c :: rest =>
    match splitOnC sep rest with
    | [] => [[]]
    | p :: ps => if c = sep then [] :: p :: ps else (c :: p) :: ps

/-- One numeric component of an address, as parsed by `inet_aton(3)`:
the first character must make it numeric, `0x`/`0X` selects hex, a bare
leading `0` selects octal weights (still accepting the digits 8 and 9,
as the BSD digit loop does), otherwise decimal. -/
def parsePart (cs : List Char) : Option Nat :=
  match cs with
  | [] => none
  | c :: rest =>
    if c = '0' then
      match rest with
      | 'x' :: hs => if hs.all isHexC = true then some (hexVal hs) else none
      | 'X' :: hs => if hs.all isHexC = true then some (hexVal hs) else none
      | _ => if rest.all isDig = true then some (octVal rest) else none
    else
      if isDig c && cs.all isDig then some (decVal cs) else none

/-- Parse every dot-separated component, failing if any fails. -/
def parseParts : List (List Char) → Option (List Nat)
  | [] => some []
  | p :: ps =>
    match parsePart p, parseParts ps with
    | some v, some vs => some (v :: vs)
    | _, _ => none

/-- Big-endian byte decomposition of a 32-bit value, as stored by
`inet_aton` after `htonl`. -/
def bytes32 (v : Nat) : List Nat :=
  [v / 16777216 % 256, v / 65536 % 256, v / 256 % 256, v % 256]

/-- Model of the libc `inet_aton(3)` routine behind `socket.inet_aton`:
split on `.`, parse each component numerically, then combine 1, 2, 3 or
4 components with the classic range checks into 4 big-endian bytes. -/
def inet_aton (cs : List Char) : Option (List Nat) :=
  match parseParts (splitOnC '.' cs) with
  | none => none
  | some vals =>
    match vals with
    | [a] => if a < 4294967296 then some (bytes32 a) else none
    | [a, b] =>
      if a < 256 ∧ b < 16777216 then some [a, b / 65536 % 256, b / 256 % 256, b % 256] else none
    | [a, b, c] =>
      if a < 256 ∧ b < 256 ∧ c < 65536 then some [a, b, c / 256 % 256, c % 256] else none
    | [a, b, c, d] =>
      if a < 256 ∧ b < 256 ∧ c < 256 ∧ d < 256 then some [a, b, c, d] else none
    | _ => none

/-- Canonical dotted-quad text of a byte sequence, as produced by
`socket.inet_ntoa` on 4 bytes. -/
def inet_ntoa (bs : List Nat) : List Char :=
  joinSep ['.'] (bs.map decToChars)

/-- Error kinds of construction: `invalidFormat` embeds the
`ValueError`s raised by the source itself, `invalidAddress` the
`OSError` raised by `socket.inet_aton` on a malformed base. -/
inductive NetError where
  | invalidFormat (msg : String)
  | invalidAddress (msg : String)
deriving DecidableEq, Repr

instance {ε α : Type} [DecidableEq ε] [DecidableEq α] : DecidableEq (Except ε α) := fun a b =>
  match a, b with
  | Except.ok x, Except.ok y =>
    if h : x = y then Decidable.isTrue (by rw [h])
    else Decidable.isFalse (by intro hc; cases hc; exact h rfl)
  | Except.error x, Except.error y =>
    if h : x = y then Decidable.isTrue (by rw [h])
    else Decidable.isFalse (by intro hc; cases hc; exact h rfl)
  | Except.ok _, Except.error _ => Decidable.isFalse (by intro hc; cases hc)
  | Except.error _, Except.ok _ => Decidable.isFalse (by intro hc; cases hc)

/-- A constructed address value without its optional mask children: the
4 raw bytes, the four representation strings of `self.formats`, and the
four visibility flags. -/
structure NetCore where
  raw : List Nat
  quadS : String
  binS : String
  decS : String
  hexS : String
  showQuad : Bool
  showBin : Bool
  showDec : Bool
  showHex : Bool
deriving DecidableEq, Repr

/-- A constructed `Net`: its own data plus the optional `mask` and
`masked` children.  In the source those children are `Net`s, but a mask
specification never contains `/` (a spec has at most one, consumed by
the split) and a masked result is built from dotted-quad text, so the
children provably never carry children of their own; the embedding makes
that structural. -/
structure Net where
  core : NetCore
  mask : Option NetCore
  masked : Option NetCore
deriving DecidableEq, Repr

/-- Model of Python `int()` on the argument `bits2int` receives (the
call site guarantees a pure digit string; anything else is the `except`
branch). -/
def pyIntOpt (cs : List Char) : Option Nat :=
  if cs ≠ [] ∧ cs.all isDig = true then some (decVal cs) else none

/-- Embeds the source's `bits2int`: turn a mask length such as `24` into
the decimal string of the 32-bit value with that many leading one bits,
by building the `1`*m `0`*(32-m) binary string and converting it. -/
def bits2int (cs : List Char) : Except NetError (List Char) :=
  match pyIntOpt cs with
  | none =>
    Except.error (NetError.invalidFormat (("Invalid netmask, non-numeric: ") ++ String.mk cs))
  | some m =>
    if 1 ≤ m ∧ m ≤ 32 then
      Except.ok (decToChars (binVal (List.replicate m '1' ++ List.replicate (32 - m) '0')))
    else
      Except.error (NetError.invalidFormat
        (("Invalid netmask, outside of 1 <= m <= 32 range: ") ++ String.mk (decToChars m)))

/-- Embeds lines 88-95 of the source: convert the normalized base to raw
bytes with `inet_aton` and populate the four representation strings.
The decimal value is `sum(256**(3-x) * raw[x])` (the powers written out);
the hex string is formatted from `int` of the decimal string; the binary
string is formatted from `int` of each (space-padded) octet of the quad
string, whose split on `.` is the padded octet list itself. -/
def coreOfBase (base : List Char) (showQuad showBin showDec showHex : Bool) :
    Except NetError NetCore :=
  match inet_aton base with
  | none => Except.error (NetError.invalidAddress (String.mk base))
  | some bs =>
    let padded := (bs.map decToChars).map (padSp 3)
    let quadCs := joinSep ['.'] padded
    let v := 16777216 * bs.getD 0 0 + 65536 * bs.getD 1 0 + 256 * bs.getD 2 0 + bs.getD 3 0
    let decCs := zfill 10 (decToChars v)
    let hexCs := zfill 8 (hexToChars (decVal decCs))
    let binCs := joinSep [' ']
      (padded.map (fun o => zfill 8 (binToChars (decVal (o.dropWhile (fun c => c == ' '))))))
    Except.ok { raw := bs, quadS := String.mk quadCs, binS := String.mk binCs,
                decS := String.mk decCs, hexS := String.mk hexCs,
                showQuad := showQuad, showBin := showBin, showDec := showDec, showHex := showHex }

/-- Embeds the slash-free part of `Net.__init__`'s dispatch (lines
56-78): with no `.`, an all-digit token of length at most 10 is a mask
length when its value is at most 32 and a literal numeric string
otherwise, a hex token of length at most 8 gets an `0x` base, anything
else is rejected; with a `.` the string itself is the base. -/
def mkSlashFreeCore (cs : List Char) (showQuad showBin showDec showHex : Bool) :
    Except NetError NetCore :=
  if cs.contains '.' = true then
    coreOfBase cs showQuad showBin showDec showHex
  else
    if cs.length ≤ 10 ∧ cs.any isDig = true ∧ cs.all isDig = true then
      if decVal cs ≤ 32 then
        match bits2int cs with
        | Except.error e => Except.error e
        | Except.ok b => coreOfBase b showQuad showBin showDec showHex
      else
        coreOfBase cs showQuad showBin showDec showHex
    else if cs.length ≤ 8 ∧ cs.all isHexC = true then
      coreOfBase ('0' :: 'x' :: cs) showQuad showBin showDec showHex
    else
      Except.error (NetError.invalidFormat
        (("Invalid CIDR block (invalid numeric value): ") ++ String.mk cs))

/-- Embeds `Net.__and__`: byte-wise AND of the two raw byte sequences,
then construction of a new `Net` from the dotted-quad text of the
result, inheriting the left operand's visibility flags.  The dotted
text contains `.` and no `/`, so the recursive construction takes the
plain-base path. -/
def coreAnd (a b : NetCore) : Except NetError NetCore :=
  let newnet := (List.range 4).map (fun o => a.raw.getD o 0 &&& b.raw.getD o 0)
  coreOfBase (inet_ntoa newnet) a.showQuad a.showBin a.showDec a.showHex

/-- `Net.__and__` at the `Net` level: the result never has children. -/
def netAnd (a b : Net) : Except NetError Net :=
  match coreAnd a.core b.core with
  | Except.error e => Except.error e
  | Except.ok c => Except.ok { core := c, mask := none, masked := none }

/-- Embeds `Net.__init__`'s top-level dispatch: more than one `/` is an
error; exactly one splits into base (passed to `coreOfBase` untouched)
and mask spec (recursively constructed, and slash-free, so the recursive
call is the slash-free path), followed by the masked-result computation;
no `/` is the slash-free path. -/
def mkNet (s : String) (showQuad showBin showDec showHex : Bool) : Except NetError Net :=
  if s.data.contains '/' = true then
    if 1 < s.data.count '/' then
      Except.error (NetError.invalidFormat (("Invalid CIDR block (multiple \"/\"es): ") ++ s))
    else
      match mkSlashFreeCore ((s.data.dropWhile (fun c => c != '/')).tail) showQuad showBin showDec showHex with
      | Except.error e => Except.error e
      | Except.ok m =>
        match coreOfBase (s.data.takeWhile (fun c => c != '/')) showQuad showBin showDec showHex with
        | Except.error e => Except.error e
        | Except.ok c =>
          match coreAnd c m with
          | Except.error e => Except.error e
          | Except.ok k => Except.ok { core := c, mask := some m, masked := some k }
  else
    match mkSlashFreeCore s.data showQuad showBin showDec showHex with
    | Except.error e => Except.error e
    | Except.ok c => Except.ok { core := c, mask := none, masked := none }

/-- The fixed representation order `Net.all_formats`. -/
inductive Fmt where
  | quad
  | bin
  | dec
  | hex
deriving DecidableEq, Repr

/-- The source's `all_formats` list. -/
def allFormats : List Fmt := [Fmt.quad, Fmt.bin, Fmt.dec, Fmt.hex]

/-- Lookup of `formats[fmt]['as string']`. -/
def fmtStr (c : NetCore) : Fmt → String
  | Fmt.quad => c.quadS
  | Fmt.bin => c.binS
  | Fmt.dec => c.decS
  | Fmt.hex => c.hexS

/-- Lookup of `formats[fmt]['show']`. -/
def fmtVisible (c : NetCore) : Fmt → Bool
  | Fmt.quad => c.showQuad
  | Fmt.bin => c.showBin
  | Fmt.dec => c.showDec
  | Fmt.hex => c.showHex

/-- Embeds the join in `Net.__str__`: the visible representations, in
`all_formats` order, joined by the constant separator. -/
def coreStr (c : NetCore) : String :=
  String.mk (joinSep (("  <=>  ").data)
    (((allFormats.filter (fun f => fmtVisible c f)).map (fun f => (fmtStr c f).data))))

/-- Embeds `Net.__str__`: prepend three spaces and append the mask line
when a mask is present, and append the masked-result line when a masked
result is present (the children are cores, so their own rendering is
the plain join). -/
def netStr (n : Net) : String :=
  let s1 := coreStr n.core
  let s2 :=
    match n.mask with
    | some m => ("   ") ++ s1 ++ ("\n & ") ++ coreStr m
    | none => s1
  match n.masked with
  | some k => s2 ++ ("\n = ") ++ coreStr k
  | none => s2

/-- The decimal value of a byte sequence, as the source computes it
(`sum(256**(3-x) * raw[x] for x in range(4))`, powers written out). -/
def natOfBytes (bs : List Nat) : Nat :=
  16777216 * bs.getD 0 0 + 65536 * bs.getD 1 0 + 256 * bs.getD 2 0 + bs.getD 3 0

/-! Helper lemmas: digit characters. -/

theorem chVal_digitCh : ∀ d, d < 10 → chVal (digitCh d) = d := by decide

theorem isDig_digitCh : ∀ d, d < 10 → isDig (digitCh d) = true := by decide

theorem digitCh_ne_zero : ∀ d, 1 ≤ d → d < 10 → digitCh d ≠ '0' := by decide

theorem isDig_ne_dot {c : Char} (h : isDig c = true) : c ≠ '.' := by
  intro heq; rw [heq] at h; exact absurd h (by decide)

theorem isDig_ne_slash {c : Char} (h : isDig c = true) : c ≠ '/' := by
  intro heq; rw [heq] at h; exact absurd h (by decide)

theorem isDig_ne_space {c : Char} (h : isDig c = true) : (c == ' ') = false := by
  apply beq_eq_false_iff_ne.mpr
  intro heq; rw [heq] at h; exact absurd h (by decide)

/-! Helper lemmas: base-b rendering. -/

theorem toBaseAux_fuel (b : Nat) (dig : Nat → Char) (hb : 2 ≤ b) :
    ∀ f g n, 1 ≤ f → 1 ≤ g → n < b ^ f → n < b ^ g →
      toBaseAux b dig f n = toBaseAux b dig g n := by
  intro f
  induction f with
  | zero => intro g n h1; exact absurd h1 (by omega)
  | succ f ih =>
    intro g n _ hg1 hnf hng
    cases g with
    | zero => exact absurd hg1 (by omega)
    | succ g =>
      simp only [toBaseAux]
      by_cases hnb : n < b
      · rw [if_pos hnb, if_pos hnb]
      · rw [if_neg hnb, if_neg hnb]
        congr 1
        have hq1 : 1 ≤ n / b := (Nat.one_le_div_iff (by omega)).mpr (by omega)
        have hqf : n / b < b ^ f := by
          rw [Nat.div_lt_iff_lt_mul (by omega : 0 < b), ← pow_succ]; exact hnf
        have hqg : n / b < b ^ g := by
          rw [Nat.div_lt_iff_lt_mul (by omega : 0 < b), ← pow_succ]; exact hng
        have hf1 : 1 ≤ f := by
          rcases Nat.eq_zero_or_pos f with h0 | h
          · subst h0; rw [pow_zero] at hqf; omega
          · exact h
        have hg1' : 1 ≤ g := by
          rcases Nat.eq_zero_or_pos g with h0 | h
          · subst h0; rw [pow_zero] at hqg; omega
          · exact h
        exact ih g (n / b) hf1 hg1' hqf hqg

theorem toBase_eq (b : Nat) (dig : Nat → Char) (hb : 2 ≤ b) (n : Nat) :
    toBase b dig n = if n < b then [dig n] else toBase b dig (n / b) ++ [dig (n % b)] := by
  have hstep : toBaseAux b dig (n + 1) n =
      if n < b then [dig n] else toBaseAux b dig n (n / b) ++ [dig (n % b)] := rfl
  unfold toBase
  rw [hstep]
  by_cases hnb : n < b
  · rw [if_pos hnb, if_pos hnb]
  · rw [if_neg hnb, if_neg hnb]
    congr 1
    apply toBaseAux_fuel b dig hb
    · omega
    · exact Nat.le_add_left 1 (n / b)
    · exact lt_of_le_of_lt (Nat.div_le_self n b) (Nat.lt_pow_self (by omega) n)
    · exact lt_of_lt_of_le (Nat.lt_pow_self (by omega) (n / b))
        (Nat.pow_le_pow_right (by omega) (by omega))

theorem toBase_val (b : Nat) (dig : Nat → Char) (cv : Char → Nat) (hb : 2 ≤ b)
    (hdig : ∀ d, d < b → cv (dig d) = d) :
    ∀ n, (toBase b dig n).foldl (fun a c => b * a + cv c) 0 = n := by
  intro n
  induction n using Nat.strong_induction_on with
  | _ n ih =>
    rw [toBase_eq b dig hb n]
    by_cases hnb : n < b
    · rw [if_pos hnb]; simp [hdig n hnb]
    · rw [if_neg hnb]
      rw [List.foldl_append]
      rw [ih (n / b) (Nat.div_lt_self (by omega) (by omega))]
      simp only [List.foldl_cons, List.foldl_nil]
      rw [hdig (n % b) (Nat.mod_lt n (by omega))]
      exact Nat.div_add_mod n b

theorem toBase_all (b : Nat) (dig : Nat → Char) (q : Char → Bool) (hb : 2 ≤ b)
    (hq : ∀ d, d < b → q (dig d) = true) :
    ∀ n, (toBase b dig n).all q = true := by
  intro n
  induction n using Nat.strong_induction_on with
  | _ n ih =>
    rw [toBase_eq b dig hb n]
    by_cases hnb : n < b
    · rw [if_pos hnb]; simp [hq n hnb]
    · rw [if_neg hnb]
      rw [List.all_append]
      rw [ih (n / b) (Nat.div_lt_self (by omega) (by omega))]
      simp [hq (n % b) (Nat.mod_lt n (by omega))]

theorem toBase_head (b : Nat) (dig : Nat → Char) (hb : 2 ≤ b) :
    ∀ n, 1 ≤ n → ∃ d cs, toBase b dig n = dig d :: cs ∧ 1 ≤ d ∧ d < b := by
  intro n
  induction n using Nat.strong_induction_on with
  | _ n ih =>
    intro h1
    rw [toBase_eq b dig hb n]
    by_cases hnb : n < b
    · rw [if_pos hnb]; exact ⟨n, [], rfl, h1, hnb⟩
    · rw [if_neg hnb]
      have hq1 : 1 ≤ n / b := (Nat.one_le_div_iff (by omega)).mpr (by omega)
      obtain ⟨d, cs, heq, hd1, hdb⟩ :=
        ih (n / b) (Nat.div_lt_self (by omega) (by omega)) hq1
      exact ⟨d, cs ++ [dig (n % b)], by rw [heq]; rfl, hd1, hdb⟩

theorem toBase_length (b : Nat) (dig : Nat → Char) (hb : 2 ≤ b) :
    ∀ n k, n < b ^ k → 1 ≤ k → (toBase b dig n).length ≤ k := by
  intro n
  induction n using Nat.strong_induction_on with
  | _ n ih =>
    intro k hnk hk1
    rw [toBase_eq b dig hb n]
    by_cases hnb : n < b
    · rw [if_pos hnb]; simpa using hk1
    · rw [if_neg hnb]
      have hk2 : 2 ≤ k := by
        by_contra hlt
        have hk : k = 1 := by omega
        subst hk
        rw [pow_one] at hnk
        exact hnb hnk
      have hq : n / b < b ^ (k - 1) := by
        rw [Nat.div_lt_iff_lt_mul (by omega : 0 < b), ← pow_succ]
        have : k - 1 + 1 = k := by omega
        rw [this]; exact hnk
      have := ih (n / b) (Nat.div_lt_self (by omega) (by omega)) (k - 1) hq (by omega)
      rw [List.length_append]
      simp only [List.length_cons, List.length_nil]
      omega

theorem decVal_decToChars (n : Nat) : decVal (decToChars n) = n :=
  toBase_val 10 digitCh chVal (by omega) chVal_digitCh n

theorem decToChars_all_isDig (n : Nat) : (decToChars n).all isDig = true :=
  toBase_all 10 digitCh isDig (by omega) isDig_digitCh n

theorem decToChars_ne_nil (n : Nat) : decToChars n ≠ [] := by
  unfold decToChars
  rw [toBase_eq 10 digitCh (by omega) n]
  by_cases hnb : n < 10
  · rw [if_pos hnb]; simp
  · rw [if_neg hnb]; simp

theorem decToChars_length {n k : Nat} (h : n < 10 ^ k) (hk : 1 ≤ k) :
    (decToChars n).length ≤ k :=
  toBase_length 10 digitCh (by omega) n k h hk

/-! Helper lemmas: splitting and joining. -/

theorem splitOnC_ne_nil (sep : Char) (cs : List Char) : splitOnC sep cs ≠ [] := by
  induction cs with
  | nil => simp [splitOnC]
  | cons c rest ih =>
    simp only [splitOnC]
    rcases hsp : splitOnC sep rest with _ | ⟨q, qs⟩
    · exact absurd hsp ih
    · by_cases hc : c = sep
      · simp [hc]
      · simp [hc]

theorem splitOnC_single (sep : Char) (cs : List Char) (h : ∀ c ∈ cs, c ≠ sep) :
    splitOnC sep cs = [cs] := by
  induction cs with
  | nil => rfl
  | cons c rest ih =>
    simp only [splitOnC]
    rw [ih (fun x hx => h x (by simp [hx]))]
    simp [h c (by simp)]

theorem splitOnC_append (sep : Char) (p rest : List Char) (h : ∀ c ∈ p, c ≠ sep) :
    splitOnC sep (p ++ sep :: rest) = p :: splitOnC sep rest := by
  induction p with
  | nil =>
    simp only [List.nil_append, splitOnC]
    rcases hsp : splitOnC sep rest with _ | ⟨q, qs⟩
    · exact absurd hsp (splitOnC_ne_nil sep rest)
    · simp
  | cons c p ih =>
    simp only [List.cons_append, splitOnC, List.append_eq]
    rw [ih (fun x hx => h x (by simp [hx]))]
    simp [h c (by simp)]

theorem mem_joinSep {c : Char} {sep : List Char} {ps : List (List Char)}
    (h : c ∈ joinSep sep ps) : c ∈ sep ∨ ∃ p ∈ ps, c ∈ p := by
  induction ps with
  | nil => simp [joinSep] at h
  | cons p ps ih =>
    rcases ps with _ | ⟨q, qs⟩
    · exact Or.inr ⟨p, by simp, h⟩
    · have hj : joinSep sep (p :: q :: qs) = p ++ sep ++ joinSep sep (q :: qs) := rfl
      rw [hj] at h
      rcases List.mem_append.mp h with h1 | h2
      · rcases List.mem_append.mp h1 with h3 | h4
        · exact Or.inr ⟨p, by simp, h3⟩
        · exact Or.inl h4
      · rcases ih h2 with h5 | ⟨r, hr, hcr⟩
        · exact Or.inl h5
        · exact Or.inr ⟨r, by simp [hr], hcr⟩

/-! Helper lemmas: parsing round trips. -/

theorem parsePart_decToChars (n : Nat) : parsePart (decToChars n) = some n := by
  rcases Nat.eq_zero_or_pos n with h0 | h1
  · subst h0; decide
  · obtain ⟨d, cs, heq0, hd1, hd10⟩ := toBase_head 10 digitCh (by omega) n h1
    have heq : decToChars n = digitCh d :: cs := heq0
    have hall : (decToChars n).all isDig = true := decToChars_all_isDig n
    have hval : decVal (decToChars n) = n := decVal_decToChars n
    rw [heq] at hall hval ⊢
    simp only [parsePart]
    rw [if_neg (digitCh_ne_zero d hd1 hd10)]
    have hdig : isDig (digitCh d) = true := isDig_digitCh d hd10
    rw [hdig, hall]
    simp [hval]

theorem ne_dot_of_decToChars {n : Nat} : ∀ c ∈ decToChars n, c ≠ '.' := by
  intro c hc
  have hall := decToChars_all_isDig n
  exact isDig_ne_dot (List.all_eq_true.mp hall c hc)

theorem ne_slash_of_decToChars {n : Nat} : ∀ c ∈ decToChars n, c ≠ '/' := by
  intro c hc
  have hall := decToChars_all_isDig n
  exact isDig_ne_slash (List.all_eq_true.mp hall c hc)

theorem inet_aton_single {n : Nat} (h : n < 4294967296) :
    inet_aton (decToChars n) = some (bytes32 n) := by
  unfold inet_aton
  rw [splitOnC_single '.' (decToChars n) ne_dot_of_decToChars]
  simp only [parseParts, parsePart_decToChars]
  rw [if_pos h]

theorem inet_ntoa_four (a b c d : Nat) :
    inet_ntoa [a, b, c, d] =
      decToChars a ++ '.' :: (decToChars b ++ '.' :: (decToChars c ++ '.' :: decToChars d)) := by
  simp [inet_ntoa, joinSep]

theorem inet_aton_ntoa {a b c d : Nat} (ha : a < 256) (hb : b < 256) (hc : c < 256)
    (hd : d < 256) : inet_aton (inet_ntoa [a, b, c, d]) = some [a, b, c, d] := by
  rw [inet_ntoa_four]
  unfold inet_aton
  rw [splitOnC_append '.' _ _ ne_dot_of_decToChars,
      splitOnC_append '.' _ _ ne_dot_of_decToChars,
      splitOnC_append '.' _ _ ne_dot_of_decToChars,
      splitOnC_single '.' _ ne_dot_of_decToChars]
  simp only [parseParts, parsePart_decToChars]
  rw [if_pos ⟨ha, hb, hc, hd⟩]

theorem inet_aton_valid {cs : List Char} {bs : List Nat} (h : inet_aton cs = some bs) :
    bs.length = 4 ∧ ∀ x ∈ bs, x < 256 := by
  unfold inet_aton at h
  rcases hp : parseParts (splitOnC '.' cs) with _ | vals <;> rw [hp] at h
  · simp at h
  · rcases vals with _ | ⟨a, _ | ⟨b, _ | ⟨c, _ | ⟨d, _ | t⟩⟩⟩⟩
    · simp at h
    · replace h : (if a < 4294967296 then some (bytes32 a) else none) = some bs := h
      split_ifs at h with hcond
      obtain rfl : bytes32 a = bs := Option.some.inj h
      refine ⟨rfl, ?_⟩
      intro x hx
      simp only [bytes32, List.mem_cons, List.not_mem_nil, or_false] at hx
      rcases hx with h1 | h1 | h1 | h1 <;> subst h1 <;> omega
    · replace h :
        (if a < 256 ∧ b < 16777216 then some [a, b / 65536 % 256, b / 256 % 256, b % 256]
          else none) = some bs := h
      split_ifs at h with hcond
      obtain rfl : [a, b / 65536 % 256, b / 256 % 256, b % 256] = bs := Option.some.inj h
      refine ⟨rfl, ?_⟩
      intro x hx
      simp only [List.mem_cons, List.not_mem_nil, or_false] at hx
      rcases hx with h1 | h1 | h1 | h1 <;> subst h1 <;> omega
    · replace h :
        (if a < 256 ∧ b < 256 ∧ c < 65536 then some [a, b, c / 256 % 256, c % 256]
          else none) = some bs := h
      split_ifs at h with hcond
      obtain rfl : [a, b, c / 256 % 256, c % 256] = bs := Option.some.inj h
      refine ⟨rfl, ?_⟩
      intro x hx
      simp only [List.mem_cons, List.not_mem_nil, or_false] at hx
      rcases hx with h1 | h1 | h1 | h1 <;> subst h1 <;> omega
    · replace h :
        (if a < 256 ∧ b < 256 ∧ c < 256 ∧ d < 256 then some [a, b, c, d] else none) =
          some bs := h
      split_ifs at h with hcond
      obtain rfl : [a, b, c, d] = bs := Option.some.inj h
      refine ⟨rfl, ?_⟩
      intro x hx
      simp only [List.mem_cons, List.not_mem_nil, or_false] at hx
      rcases hx with h1 | h1 | h1 | h1 <;> subst h1 <;> omega
    · simp at h

/-! Helper lemmas: numeric values of built strings. -/

theorem contains_eq_false_of {l : List Char} {a : Char} (h : ∀ c ∈ l, c ≠ a) :
    l.contains a = false := by
  rw [Bool.eq_false_iff]
  intro hc
  have hmem : a ∈ l := by simpa using hc
  exact (h a hmem) rfl

theorem contains_eq_true_of {l : List Char} {a : Char} (h : a ∈ l) :
    l.contains a = true := by simpa using h

theorem foldl_bin_ones (m : Nat) :
    ∀ a, List.foldl (fun x c => 2 * x + chVal c) a (List.replicate m '1') + 1 =
      (a + 1) * 2 ^ m := by
  induction m with
  | zero => intro a; simp
  | succ m ih =>
    intro a
    rw [List.replicate_succ, List.foldl_cons]
    have hc1 : chVal '1' = 1 := by decide
    rw [hc1, ih (2 * a + 1), pow_succ]
    ring

theorem foldl_bin_zeros (k : Nat) :
    ∀ a, List.foldl (fun x c => 2 * x + chVal c) a (List.replicate k '0') = a * 2 ^ k := by
  induction k with
  | zero => intro a; simp
  | succ k ih =>
    intro a
    rw [List.replicate_succ, List.foldl_cons]
    have hc0 : chVal '0' = 0 := by decide
    rw [hc0, ih (2 * a + 0), pow_succ]
    ring

theorem binVal_mask {m : Nat} (hm : m ≤ 32) :
    binVal (List.replicate m '1' ++ List.replicate (32 - m) '0') = 2 ^ 32 - 2 ^ (32 - m) := by
  unfold binVal
  rw [List.foldl_append]
  have h1 : List.foldl (fun x c => 2 * x + chVal c) 0 (List.replicate m '1') = 2 ^ m - 1 := by
    have := foldl_bin_ones m 0
    omega
  rw [h1, foldl_bin_zeros]
  rw [Nat.sub_mul, one_mul, ← pow_add]
  have hadd : m + (32 - m) = 32 := by omega
  rw [hadd]

theorem foldl_dec_zeros (k : Nat) :
    List.foldl (fun a c => 10 * a + chVal c) 0 (List.replicate k '0') = 0 := by
  induction k with
  | zero => simp
  | succ k ih =>
    rw [List.replicate_succ, List.foldl_cons]
    have hc0 : chVal '0' = 0 := by decide
    simp [hc0, ih]

theorem decVal_append_zeros (k : Nat) (l : List Char) :
    decVal (List.replicate k '0' ++ l) = decVal l := by
  unfold decVal
  rw [List.foldl_append, foldl_dec_zeros]

theorem decVal_zfill (w n : Nat) : decVal (zfill w (decToChars n)) = n := by
  unfold zfill
  rw [decVal_append_zeros, decVal_decToChars]

theorem hexCharVal_lt (c : Char) : hexCharVal c < 16 := by
  unfold hexCharVal
  split_ifs with h1 h2 h3
  · simp only [Bool.and_eq_true, decide_eq_true_eq] at h1; omega
  · simp only [Bool.and_eq_true, decide_eq_true_eq] at h2; omega
  · simp only [Bool.and_eq_true, decide_eq_true_eq] at h3; omega
  · omega

theorem foldl_hex_bound :
    ∀ (cs : List Char) (a : Nat),
      List.foldl (fun x c => 16 * x + hexCharVal c) a cs < (a + 1) * 16 ^ cs.length := by
  intro cs
  induction cs with
  | nil => intro a; simp
  | cons c rest ih =>
    intro a
    rw [List.foldl_cons, List.length_cons]
    have hc : hexCharVal c < 16 := hexCharVal_lt c
    have hrec := ih (16 * a + hexCharVal c)
    apply lt_of_lt_of_le hrec
    have hle : 16 * a + hexCharVal c + 1 ≤ (a + 1) * 16 := by omega
    calc (16 * a + hexCharVal c + 1) * 16 ^ rest.length
        ≤ (a + 1) * 16 * 16 ^ rest.length := Nat.mul_le_mul_right _ hle
      _ = (a + 1) * 16 ^ (rest.length + 1) := by rw [pow_succ]; ring

theorem hexVal_lt (cs : List Char) : hexVal cs < 16 ^ cs.length := by
  have := foldl_hex_bound cs 0
  simpa [hexVal] using this

theorem natOfBytes_bytes32 {v : Nat} (h : v < 4294967296) :
    natOfBytes (bytes32 v) = v := by
  simp only [natOfBytes, bytes32, List.getD_cons_zero, List.getD_cons_succ]
  omega

theorem bytes32_lt (v : Nat) : ∀ x ∈ bytes32 v, x < 256 := by
  intro x hx
  simp only [bytes32, List.mem_cons, List.not_mem_nil, or_false] at hx
  rcases hx with h1 | h1 | h1 | h1 <;> subst h1 <;> omega

theorem dropWhile_replicate_space (k : Nat) (l : List Char) :
    (List.replicate k ' ' ++ l).dropWhile (fun c => c == ' ') =
      l.dropWhile (fun c => c == ' ') := by
  induction k with
  | zero => simp
  | succ k ih =>
    rw [List.replicate_succ, List.cons_append, List.dropWhile_cons]
    simp [ih]

theorem dropWhile_padSp {cs : List Char} (w : Nat) (hne : cs ≠ [])
    (hd : cs.all isDig = true) : (padSp w cs).dropWhile (fun c => c == ' ') = cs := by
  unfold padSp
  rw [dropWhile_replicate_space]
  rcases cs with _ | ⟨c, rest⟩
  · exact absurd rfl hne
  · rw [List.dropWhile_cons]
    have : isDig c = true := (List.all_eq_true.mp hd) c (by simp)
    rw [isDig_ne_space this]
    simp

/-! Helper lemmas: construction. -/

theorem nat_and_self (n : Nat) : n &&& n = n := by
  apply Nat.eq_of_testBit_eq
  intro i
  simp [Nat.testBit_land]

theorem coreOfBase_err {base : List Char} (h : inet_aton base = none) (fq fb fd fh : Bool) :
    coreOfBase base fq fb fd fh = Except.error (NetError.invalidAddress (String.mk base)) := by
  unfold coreOfBase
  rw [h]

theorem coreOfBase_spec {base : List Char} {bs : List Nat} (h : inet_aton base = some bs)
    (fq fb fd fh : Bool) :
    coreOfBase base fq fb fd fh = Except.ok
      { raw := bs,
        quadS := String.mk (joinSep ['.'] ((bs.map decToChars).map (padSp 3))),
        binS := String.mk (joinSep [' '] (((bs.map decToChars).map (padSp 3)).map
          (fun o => zfill 8 (binToChars (decVal (o.dropWhile (fun c => c == ' '))))))),
        decS := String.mk (zfill 10 (decToChars (natOfBytes bs))),
        hexS := String.mk (zfill 8 (hexToChars (decVal (zfill 10 (decToChars (natOfBytes bs)))))),
        showQuad := fq, showBin := fb, showDec := fd, showHex := fh } := by
  unfold coreOfBase
  rw [h]
  rfl

theorem coreOfBase_ok_elim {base : List Char} {fq fb fd fh : Bool} {c : NetCore}
    (h : coreOfBase base fq fb fd fh = Except.ok c) :
    ∃ bs, inet_aton base = some bs ∧ c.raw = bs ∧ c.showQuad = fq ∧ c.showBin = fb ∧
      c.showDec = fd ∧ c.showHex = fh ∧
      c.decS = String.mk (zfill 10 (decToChars (natOfBytes bs))) ∧
      c.hexS = String.mk (zfill 8 (hexToChars (decVal (zfill 10 (decToChars (natOfBytes bs)))))) := by
  rcases ha : inet_aton base with _ | bs
  · rw [coreOfBase_err ha fq fb fd fh] at h
    exact absurd h (by simp)
  · rw [coreOfBase_spec ha fq fb fd fh] at h
    obtain rfl := Except.ok.inj h
    exact ⟨bs, rfl, rfl, rfl, rfl, rfl, rfl, rfl, rfl⟩

theorem coreOfBase_valid {base : List Char} {fq fb fd fh : Bool} {c : NetCore}
    (h : coreOfBase base fq fb fd fh = Except.ok c) :
    c.raw.length = 4 ∧ ∀ x ∈ c.raw, x < 256 := by
  obtain ⟨bs, ha, hraw, _⟩ := coreOfBase_ok_elim h
  rw [hraw]
  exact inet_aton_valid ha

theorem mkSlashFreeCore_ok_elim {cs : List Char} {fq fb fd fh : Bool} {c : NetCore}
    (h : mkSlashFreeCore cs fq fb fd fh = Except.ok c) :
    ∃ base, coreOfBase base fq fb fd fh = Except.ok c := by
  unfold mkSlashFreeCore at h
  split_ifs at h
  · exact ⟨cs, h⟩
  · rcases hb : bits2int cs with e | b <;> rw [hb] at h
    · exact absurd h (by simp)
    · exact ⟨b, h⟩
  · exact ⟨cs, h⟩
  · exact ⟨'0' :: 'x' :: cs, h⟩

theorem mkSlashFreeCore_flags {cs : List Char} {fq fb fd fh : Bool} {c : NetCore}
    (h : mkSlashFreeCore cs fq fb fd fh = Except.ok c) :
    c.showQuad = fq ∧ c.showBin = fb ∧ c.showDec = fd ∧ c.showHex = fh := by
  obtain ⟨base, hc⟩ := mkSlashFreeCore_ok_elim h
  obtain ⟨bs, _, _, h1, h2, h3, h4, _⟩ := coreOfBase_ok_elim hc
  exact ⟨h1, h2, h3, h4⟩

theorem mkSlashFreeCore_valid {cs : List Char} {fq fb fd fh : Bool} {c : NetCore}
    (h : mkSlashFreeCore cs fq fb fd fh = Except.ok c) :
    c.raw.length = 4 ∧ ∀ x ∈ c.raw, x < 256 := by
  obtain ⟨base, hc⟩ := mkSlashFreeCore_ok_elim h
  exact coreOfBase_valid hc

theorem and_bytes_eq (xs ys : List Nat) :
    ∃ z0 z1 z2 z3,
      (List.range 4).map (fun o => xs.getD o 0 &&& ys.getD o 0) = [z0, z1, z2, z3] ∧
      z0 = xs.getD 0 0 &&& ys.getD 0 0 ∧ z1 = xs.getD 1 0 &&& ys.getD 1 0 ∧
      z2 = xs.getD 2 0 &&& ys.getD 2 0 ∧ z3 = xs.getD 3 0 &&& ys.getD 3 0 := by
  refine ⟨_, _, _, _, ?_, rfl, rfl, rfl, rfl⟩
  simp [List.range_succ]

theorem getD_lt_of_valid {l : List Nat} (h4 : l.length = 4) (hB : ∀ x ∈ l, x < 256)
    {o : Nat} (ho : o < 4) : l.getD o 0 < 256 := by
  rcases l with _ | ⟨a, _ | ⟨b, _ | ⟨c, _ | ⟨d, _ | t⟩⟩⟩⟩ <;> simp_all
  interval_cases o <;> simp [List.getD] <;> simp_all

theorem coreAnd_spec {a b : NetCore} (ha4 : a.raw.length = 4)
    (haB : ∀ x ∈ a.raw, x < 256) :
    ∃ k, coreAnd a b = Except.ok k ∧
      k.raw = (List.range 4).map (fun o => a.raw.getD o 0 &&& b.raw.getD o 0) ∧
      k.showQuad = a.showQuad ∧ k.showBin = a.showBin ∧
      k.showDec = a.showDec ∧ k.showHex = a.showHex := by
  obtain ⟨z0, z1, z2, z3, hzs, hz0, hz1, hz2, hz3⟩ := and_bytes_eq a.raw b.raw
  have hlt : ∀ o, o < 4 → a.raw.getD o 0 &&& b.raw.getD o 0 < 256 := fun o ho =>
    lt_of_le_of_lt Nat.and_le_left (getD_lt_of_valid ha4 haB ho)
  have haton : inet_aton (inet_ntoa [z0, z1, z2, z3]) = some [z0, z1, z2, z3] := by
    apply inet_aton_ntoa
    · rw [hz0]; exact hlt 0 (by omega)
    · rw [hz1]; exact hlt 1 (by omega)
    · rw [hz2]; exact hlt 2 (by omega)
    · rw [hz3]; exact hlt 3 (by omega)
  unfold coreAnd
  rw [hzs]
  rw [coreOfBase_spec haton]
  exact ⟨_, rfl, rfl, rfl, rfl, rfl, rfl⟩

theorem mkNet_noSlash {s : String} (fq fb fd fh : Bool) (h : ∀ c ∈ s.data, c ≠ '/') :
    mkNet s fq fb fd fh =
      match mkSlashFreeCore s.data fq fb fd fh with
      | Except.error e => Except.error e
      | Except.ok c => Except.ok { core := c, mask := none, masked := none } := by
  unfold mkNet
  rw [contains_eq_false_of h]
  simp

theorem mkNet_oneSlash {s : String} (fq fb fd fh : Bool) (h : s.data.count '/' = 1) :
    mkNet s fq fb fd fh =
      match mkSlashFreeCore ((s.data.dropWhile (fun c => c != '/')).tail) fq fb fd fh with
      | Except.error e => Except.error e
      | Except.ok m =>
        match coreOfBase (s.data.takeWhile (fun c => c != '/')) fq fb fd fh with
        | Except.error e => Except.error e
        | Except.ok c =>
          match coreAnd c m with
          | Except.error e => Except.error e
          | Except.ok k => Except.ok { core := c, mask := some m, masked := some k } := by
  unfold mkNet
  have hmem : '/' ∈ s.data := List.count_pos_iff.mp (by omega)
  rw [contains_eq_true_of hmem]
  rw [h]
  simp

theorem mkNet_multiSlash {s : String} (fq fb fd fh : Bool) (h : 1 < s.data.count '/') :
    mkNet s fq fb fd fh =
      Except.error (NetError.invalidFormat (("Invalid CIDR block (multiple \"/\"es): ") ++ s)) := by
  unfold mkNet
  have hmem : '/' ∈ s.data := List.count_pos_iff.mp (by omega)
  rw [contains_eq_true_of hmem]
  rw [if_pos rfl, if_pos h]

theorem coreAnd_flags {a b : NetCore} {k : NetCore} (h : coreAnd a b = Except.ok k) :
    k.showQuad = a.showQuad ∧ k.showBin = a.showBin ∧
    k.showDec = a.showDec ∧ k.showHex = a.showHex := by
  unfold coreAnd at h
  obtain ⟨bs, _, _, h1, h2, h3, h4, _⟩ := coreOfBase_ok_elim h
  exact ⟨h1, h2, h3, h4⟩

theorem map_range_getD {l : List Nat} (h : l.length = 4) :
    (List.range 4).map (fun o => l.getD o 0) = l := by
  rcases l with _ | ⟨a, _ | ⟨b, _ | ⟨c, _ | ⟨d, _ | t⟩⟩⟩⟩ <;> simp_all [List.range_succ]

theorem any_of_all_ne_nil {cs : List Char} {p : Char → Bool} (hne : cs ≠ [])
    (h : cs.all p = true) : cs.any p = true := by
  rcases cs with _ | ⟨c, rest⟩
  · exact absurd rfl hne
  · simp only [List.all_cons, Bool.and_eq_true] at h
    simp [h.1]

theorem mkNet_ok_elim {s : String} {fq fb fd fh : Bool} {net : Net}
    (h : mkNet s fq fb fd fh = Except.ok net) :
    (s.data.count '/' = 0 ∧ ∃ c, mkSlashFreeCore s.data fq fb fd fh = Except.ok c ∧
      net = { core := c, mask := none, masked := none }) ∨
    (s.data.count '/' = 1 ∧ ∃ m c k,
      mkSlashFreeCore ((s.data.dropWhile (fun x => x != '/')).tail) fq fb fd fh = Except.ok m ∧
      coreOfBase (s.data.takeWhile (fun x => x != '/')) fq fb fd fh = Except.ok c ∧
      coreAnd c m = Except.ok k ∧
      net = { core := c, mask := some m, masked := some k }) := by
  rcases hcnt : s.data.count '/' with _ | n
  · left
    have hmem : ∀ c ∈ s.data, c ≠ '/' := by
      intro c hc heq
      subst heq
      have hpos : 0 < s.data.count '/' := List.count_pos_iff.mpr hc
      omega
    rw [mkNet_noSlash fq fb fd fh hmem] at h
    rcases hsl : mkSlashFreeCore s.data fq fb fd fh with e | c <;> rw [hsl] at h
    · have h' : Except.error (α := Net) e = Except.ok net := h
      exact absurd h' (by simp)
    · have h' : Except.ok { core := c, mask := none, masked := none } = Except.ok net := h
      exact ⟨rfl, c, rfl, (Except.ok.inj h').symm⟩
  · rcases n with _ | n2
    · right
      rw [mkNet_oneSlash fq fb fd fh hcnt] at h
      rcases hm : mkSlashFreeCore ((s.data.dropWhile (fun x => x != '/')).tail) fq fb fd fh
          with e | m <;> rw [hm] at h <;> dsimp only at h
      · exact absurd h (by simp)
      · rcases hcb : coreOfBase (s.data.takeWhile (fun x => x != '/')) fq fb fd fh
            with e | c <;> rw [hcb] at h <;> dsimp only at h
        · exact absurd h (by simp)
        · rcases hk : coreAnd c m with e | k <;> rw [hk] at h <;> dsimp only at h
          · exact absurd h (by simp)
          · exact ⟨by omega, m, c, k, rfl, rfl, hk, (Except.ok.inj h).symm⟩
    · rw [mkNet_multiSlash fq fb fd fh (by omega)] at h
      exact absurd h (by simp)

theorem mkNet_core_valid {s : String} {fq fb fd fh : Bool} {net : Net}
    (h : mkNet s fq fb fd fh = Except.ok net) :
    net.core.raw.length = 4 ∧ ∀ x ∈ net.core.raw, x < 256 := by
  rcases mkNet_ok_elim h with ⟨_, c, hc, rfl⟩ | ⟨_, m, c, k, _, hc, _, rfl⟩
  · exact mkSlashFreeCore_valid hc
  · exact coreOfBase_valid hc

theorem coreOfBase_flags {base : List Char} {fq fb fd fh : Bool} {c : NetCore}
    (h : coreOfBase base fq fb fd fh = Except.ok c) :
    c.showQuad = fq ∧ c.showBin = fb ∧ c.showDec = fd ∧ c.showHex = fh := by
  obtain ⟨bs, _, _, h1, h2, h3, h4, _, _⟩ := coreOfBase_ok_elim h
  exact ⟨h1, h2, h3, h4⟩

theorem getD_map_range (f : Nat → Nat) {i : Nat} (h : i < 4) :
    ((List.range 4).map f).getD i 0 = f i := by
  have hr : List.range 4 = [0, 1, 2, 3] := by decide
  rw [hr]
  interval_cases i <;> rfl

/-- An inert placeholder core for `Option.getD` defaults below. -/
def emptyCore : NetCore :=
  { raw := [], quadS := (""), binS := (""), decS := (""), hexS := (""),
    showQuad := true, showBin := true, showDec := true, showHex := true }

/-- An inert placeholder value for `Option.getD` defaults below. -/
def emptyNet : Net := { core := emptyCore, mask := none, masked := none }

/-- A sample constructed value (from `1.2.3.4/24`) used to instantiate
theorems at a concrete input. -/
def demoNet : Net := (mkNet ("1.2.3.4/24") true true true true).toOption.getD emptyNet

/-- A sample constructed netmask value (from the mask specification `24`). -/
def demoMask : Net := (mkNet ("24") true true true true).toOption.getD emptyNet

/-- C7: construction from a specification string containing more than one `/`
always fails with the `invalidFormat` error kind (the `ValueError` for
multiple separators), while construction whose normalized base fails
dotted-quad address parsing, such as `999.1.1.1`, fails with the distinct
`invalidAddress` error kind (the `OSError` from `inet_aton`). -/
theorem C7_error_kinds :
    (∀ (s : String) (fq fb fd fh : Bool), 1 < s.data.count '/' →
      mkNet s fq fb fd fh = Except.error
        (NetError.invalidFormat (("Invalid CIDR block (multiple \"/\"es): ") ++ s))) ∧
    mkNet ("999.1.1.1") true true true true =
      Except.error (NetError.invalidAddress ("999.1.1.1")) := by
  constructor
  · intro s fq fb fd fh h
    exact mkNet_multiSlash fq fb fd fh h
  · decide

/-- Witness for C7 at the concrete input `1.2.3.4/25/26`. -/
theorem C7_error_kinds_witness :
    mkNet ("1.2.3.4/25/26") true true true true = Except.error
      (NetError.invalidFormat (("Invalid CIDR block (multiple \"/\"es): ") ++ "1.2.3.4/25/26")) :=
  C7_error_kinds.1 ("1.2.3.4/25/26") true true true true (by decide)

/-- C8: for every successfully constructed value, `masked` is present if and
only if `mask` is present, and both children carry exactly the visibility
flags of the parent value. -/
theorem C8_children (s : String) (fq fb fd fh : Bool) (net : Net)
    (h : mkNet s fq fb fd fh = Except.ok net) :
    (net.mask.isSome ↔ net.masked.isSome) ∧
    (∀ m ∈ net.mask, m.showQuad = net.core.showQuad ∧ m.showBin = net.core.showBin ∧
      m.showDec = net.core.showDec ∧ m.showHex = net.core.showHex) ∧
    (∀ k ∈ net.masked, k.showQuad = net.core.showQuad ∧ k.showBin = net.core.showBin ∧
      k.showDec = net.core.showDec ∧ k.showHex = net.core.showHex) := by
  rcases mkNet_ok_elim h with ⟨_, c, hc, rfl⟩ | ⟨_, m, c, k, hm, hcb, hk, rfl⟩
  · exact ⟨by simp, by simp, by simp⟩
  · refine ⟨by simp, ?_, ?_⟩
    · intro m' hm'
      have hmm : m = m' := by simpa using hm'
      subst hmm
      obtain ⟨q1, b1, d1, x1⟩ := mkSlashFreeCore_flags hm
      obtain ⟨q2, b2, d2, x2⟩ := coreOfBase_flags hcb
      exact ⟨by rw [q1, q2], by rw [b1, b2], by rw [d1, d2], by rw [x1, x2]⟩
    · intro k' hk'
      have hkk : k = k' := by simpa using hk'
      subst hkk
      exact coreAnd_flags hk

set_option maxRecDepth 20000 in
/-- Witness for C8 at the concrete input `1.2.3.4/24`. -/
theorem C8_children_witness :
    (demoNet.mask.isSome ↔ demoNet.masked.isSome) ∧
    (∀ m ∈ demoNet.mask, m.showQuad = demoNet.core.showQuad ∧
      m.showBin = demoNet.core.showBin ∧
      m.showDec = demoNet.core.showDec ∧ m.showHex = demoNet.core.showHex) ∧
    (∀ k ∈ demoNet.masked, k.showQuad = demoNet.core.showQuad ∧
      k.showBin = demoNet.core.showBin ∧
      k.showDec = demoNet.core.showDec ∧ k.showHex = demoNet.core.showHex) :=
  C8_children ("1.2.3.4/24") true true true true demoNet (by decide)

/-- C3: for two already-valid values (4 raw bytes each, all below 256), the
mask-application operation succeeds and returns a value whose raw bytes are
the position-wise bitwise AND of the operands' raw bytes and whose
visibility flags are exactly the left operand's. -/
theorem C3_and_correct (a b : Net)
    (ha4 : a.core.raw.length = 4) (haB : ∀ x ∈ a.core.raw, x < 256)
    (_hb4 : b.core.raw.length = 4) (_hbB : ∀ x ∈ b.core.raw, x < 256) :
    ∃ r, netAnd a b = Except.ok r ∧
      (∀ i, i < 4 → r.core.raw.getD i 0 = a.core.raw.getD i 0 &&& b.core.raw.getD i 0) ∧
      r.core.showQuad = a.core.showQuad ∧ r.core.showBin = a.core.showBin ∧
      r.core.showDec = a.core.showDec ∧ r.core.showHex = a.core.showHex := by
  obtain ⟨k, hk, hraw, h1, h2, h3, h4⟩ := coreAnd_spec ha4 haB (b := b.core)
  refine ⟨{ core := k, mask := none, masked := none }, ?_, ?_, h1, h2, h3, h4⟩
  · unfold netAnd
    rw [hk]
  · intro i hi
    show k.raw.getD i 0 = _
    rw [hraw, getD_map_range _ hi]

set_option maxRecDepth 20000 in
/-- Witness for C3 at two concrete values. -/
theorem C3_and_correct_witness :
    ∃ r, netAnd demoNet demoMask = Except.ok r ∧
      (∀ i, i < 4 → r.core.raw.getD i 0 =
        demoNet.core.raw.getD i 0 &&& demoMask.core.raw.getD i 0) ∧
      r.core.showQuad = demoNet.core.showQuad ∧ r.core.showBin = demoNet.core.showBin ∧
      r.core.showDec = demoNet.core.showDec ∧ r.core.showHex = demoNet.core.showHex :=
  C3_and_correct demoNet demoMask (by decide) (by decide) (by decide) (by decide)

/-- C10: the mask-application operation is commutative on raw bytes; only the
inherited visibility flags come from the left operand. -/
theorem C10_and_comm (a b : Net)
    (ha4 : a.core.raw.length = 4) (haB : ∀ x ∈ a.core.raw, x < 256)
    (hb4 : b.core.raw.length = 4) (hbB : ∀ x ∈ b.core.raw, x < 256) :
    ∃ ra rb, netAnd a b = Except.ok ra ∧ netAnd b a = Except.ok rb ∧
      ra.core.raw = rb.core.raw := by
  obtain ⟨k1, hk1, hraw1, _⟩ := coreAnd_spec ha4 haB (b := b.core)
  obtain ⟨k2, hk2, hraw2, _⟩ := coreAnd_spec hb4 hbB (b := a.core)
  refine ⟨{ core := k1, mask := none, masked := none },
    { core := k2, mask := none, masked := none },
    by unfold netAnd; rw [hk1], by unfold netAnd; rw [hk2], ?_⟩
  show k1.raw = k2.raw
  have hfun : (fun o => a.core.raw.getD o 0 &&& b.core.raw.getD o 0) =
      (fun o => b.core.raw.getD o 0 &&& a.core.raw.getD o 0) :=
    funext fun o => Nat.land_comm _ _
  rw [hraw1, hraw2, hfun]

set_option maxRecDepth 20000 in
/-- Witness for C10 at two concrete values. -/
theorem C10_and_comm_witness :
    ∃ ra rb, netAnd demoNet demoMask = Except.ok ra ∧
      netAnd demoMask demoNet = Except.ok rb ∧ ra.core.raw = rb.core.raw :=
  C10_and_comm demoNet demoMask (by decide) (by decide) (by decide) (by decide)

/-- C9: masking is idempotent on raw bytes for every successfully
constructed value (in particular every netmask built from a well-formed
mask specification): the raw bytes of `m AND m` equal the raw bytes of
`m`. -/
theorem C9_mask_idempotent (s : String) (fq fb fd fh : Bool) (net : Net)
    (h : mkNet s fq fb fd fh = Except.ok net) :
    ∃ r, netAnd net net = Except.ok r ∧ r.core.raw = net.core.raw := by
  obtain ⟨h4, hB⟩ := mkNet_core_valid h
  obtain ⟨k, hk, hraw, _⟩ := coreAnd_spec h4 hB (b := net.core)
  refine ⟨{ core := k, mask := none, masked := none }, by unfold netAnd; rw [hk], ?_⟩
  show k.raw = net.core.raw
  have hfun : (fun o => net.core.raw.getD o 0 &&& net.core.raw.getD o 0) =
      (fun o => net.core.raw.getD o 0) := funext fun o => nat_and_self _
  rw [hraw, hfun]
  exact map_range_getD h4

set_option maxRecDepth 20000 in
/-- Witness for C9 at the concrete netmask built from `24`. -/
theorem C9_mask_idempotent_witness :
    ∃ r, netAnd demoMask demoMask = Except.ok r ∧ r.core.raw = demoMask.core.raw :=
  C9_mask_idempotent ("24") true true true true demoMask (by decide)

/-- C6: the display string lists exactly the visible representations in the
fixed order quad, binary, decimal, hex, joined by the constant separator,
and a value carrying mask and masked-result children renders as the
3-space-prefixed primary line followed by the `\n & ` mask line and the
`\n = ` masked-result line. -/
theorem C6_display (n : Net) :
    (coreStr n.core = String.mk (joinSep (("  <=>  ").data)
      ((if n.core.showQuad then [n.core.quadS.data] else []) ++
       (if n.core.showBin then [n.core.binS.data] else []) ++
       (if n.core.showDec then [n.core.decS.data] else []) ++
       (if n.core.showHex then [n.core.hexS.data] else [])))) ∧
    (∀ m k, n.mask = some m → n.masked = some k →
      netStr n = ("   ") ++ coreStr n.core ++ ("\n & ") ++ coreStr m ++
        ("\n = ") ++ coreStr k) ∧
    (n.mask = none → n.masked = none → netStr n = coreStr n.core) := by
  refine ⟨?_, ?_, ?_⟩
  · rcases n with ⟨⟨raw, qs, bs, ds, hs, sq, sb, sd, sh⟩, mask, masked⟩
    cases sq <;> cases sb <;> cases sd <;> cases sh <;> rfl
  · rintro m k h1 h2
    rcases n with ⟨core, mask, masked⟩
    dsimp only at h1 h2 ⊢
    subst h1
    subst h2
    rfl
  · intro h1 h2
    rcases n with ⟨core, mask, masked⟩
    dsimp only at h1 h2 ⊢
    subst h1
    subst h2
    rfl

set_option maxRecDepth 20000 in
/-- Witness for C6 at the concrete value built from `1.2.3.4/24`. -/
theorem C6_display_witness :
    netStr demoNet = ("   ") ++ coreStr demoNet.core ++ ("\n & ") ++
      coreStr (demoNet.mask.getD emptyCore) ++ ("\n = ") ++
      coreStr (demoNet.masked.getD emptyCore) :=
  (C6_display demoNet).2.1 (demoNet.mask.getD emptyCore) (demoNet.masked.getD emptyCore)
    (by decide) (by decide)

/-- Lowercase hex digit test (digits and `a`-`f` only), used to state that
the rendered hex representation is lowercase. -/
def isHexLower (c : Char) : Bool := isDig c || (97 ≤ c.toNat && c.toNat ≤ 102)

theorem zfill_length {cs : List Char} {w : Nat} (h : cs.length ≤ w) :
    (zfill w cs).length = w := by
  simp only [zfill, List.length_append, List.length_replicate]
  omega

theorem all_zfill {cs : List Char} {w : Nat} {p : Char → Bool} (h0 : p '0' = true)
    (h : cs.all p = true) : (zfill w cs).all p = true := by
  simp only [zfill, List.all_append, Bool.and_eq_true]
  refine ⟨?_, h⟩
  rw [List.all_eq_true]
  intro x hx
  rw [(List.mem_replicate.mp hx).2]
  exact h0

theorem isHexLower_hexDig : ∀ d, d < 16 → isHexLower (hexDig d) = true := by decide

theorem hexToChars_all_lower (n : Nat) : (hexToChars n).all isHexLower = true :=
  toBase_all 16 hexDig isHexLower (by omega) isHexLower_hexDig n

/-- C5: for every dotted-quad input `a.b.c.d` with octets below 256, the
rendered decimal representation is the 32-bit big-endian value
`a*256^3 + b*256^2 + c*256 + d` zero-padded to exactly 10 digits, and the
rendered hex representation is the same value as exactly 8 lowercase
zero-padded hex digits. -/
theorem C5_dec_hex (a b c d : Nat) (fq fb fd fh : Bool)
    (ha : a < 256) (hb : b < 256) (hc : c < 256) (hd : d < 256) :
    ∃ net, mkNet (String.mk (inet_ntoa [a, b, c, d])) fq fb fd fh = Except.ok net ∧
      net.core.decS =
        String.mk (zfill 10 (decToChars (16777216 * a + 65536 * b + 256 * c + d))) ∧
      net.core.decS.data.length = 10 ∧
      net.core.hexS =
        String.mk (zfill 8 (hexToChars (16777216 * a + 65536 * b + 256 * c + d))) ∧
      net.core.hexS.data.length = 8 ∧
      net.core.hexS.data.all isHexLower = true := by
  have hchars : ∀ x ∈ inet_ntoa [a, b, c, d], x = '.' ∨ isDig x = true := by
    intro x hx
    unfold inet_ntoa at hx
    rcases mem_joinSep hx with hsep | ⟨p, hp, hxp⟩
    · left; simpa using hsep
    · right
      simp only [List.mem_map, List.mem_cons, List.not_mem_nil, or_false] at hp
      obtain ⟨n, _, rfl⟩ := hp
      exact List.all_eq_true.mp (decToChars_all_isDig n) x hxp
  have hslash : ∀ x ∈ (String.mk (inet_ntoa [a, b, c, d])).data, x ≠ '/' := by
    intro x hx
    rcases hchars x hx with h1 | h1
    · subst h1; decide
    · exact isDig_ne_slash h1
  rw [mkNet_noSlash fq fb fd fh hslash]
  have hdot : (String.mk (inet_ntoa [a, b, c, d])).data.contains '.' = true := by
    apply contains_eq_true_of
    show '.' ∈ inet_ntoa [a, b, c, d]
    rw [inet_ntoa_four]
    simp
  unfold mkSlashFreeCore
  rw [if_pos hdot]
  have haton : inet_aton ((String.mk (inet_ntoa [a, b, c, d])).data) = some [a, b, c, d] :=
    inet_aton_ntoa ha hb hc hd
  rw [coreOfBase_spec haton fq fb fd fh]
  have hnb : natOfBytes [a, b, c, d] = 16777216 * a + 65536 * b + 256 * c + d := rfl
  have hv32 : 16777216 * a + 65536 * b + 256 * c + d < 4294967296 := by omega
  have hdecv : decVal (zfill 10 (decToChars (natOfBytes [a, b, c, d]))) =
      16777216 * a + 65536 * b + 256 * c + d := by
    rw [decVal_zfill, hnb]
  have hdlen : (decToChars (natOfBytes [a, b, c, d])).length ≤ 10 := by
    apply decToChars_length _ (by omega)
    rw [hnb]
    exact lt_of_lt_of_le hv32 (by norm_num)
  have hhlen : (hexToChars (16777216 * a + 65536 * b + 256 * c + d)).length ≤ 8 := by
    apply toBase_length 16 hexDig (by omega) _ 8 _ (by omega)
    exact lt_of_lt_of_le hv32 (by norm_num)
  refine ⟨_, rfl, ?_, ?_, ?_, ?_, ?_⟩
  · show String.mk (zfill 10 (decToChars (natOfBytes [a, b, c, d]))) = _
    rw [hnb]
  · show (zfill 10 (decToChars (natOfBytes [a, b, c, d]))).length = 10
    exact zfill_length hdlen
  · show String.mk (zfill 8 (hexToChars (decVal (zfill 10
      (decToChars (natOfBytes [a, b, c, d])))))) = _
    rw [hdecv]
  · show (zfill 8 (hexToChars (decVal (zfill 10
      (decToChars (natOfBytes [a, b, c, d])))))).length = 8
    rw [hdecv]
    exact zfill_length hhlen
  · show (zfill 8 (hexToChars (decVal (zfill 10
      (decToChars (natOfBytes [a, b, c, d])))))).all isHexLower = true
    rw [hdecv]
    exact all_zfill (by decide) (hexToChars_all_lower _)

set_option maxRecDepth 20000 in
/-- Witness for C5 at the concrete octets 1, 2, 3, 4. -/
theorem C5_dec_hex_witness :
    ∃ net, mkNet (String.mk (inet_ntoa [1, 2, 3, 4])) true true true true = Except.ok net ∧
      net.core.decS =
        String.mk (zfill 10 (decToChars (16777216 * 1 + 65536 * 2 + 256 * 3 + 4))) ∧
      net.core.decS.data.length = 10 ∧
      net.core.hexS =
        String.mk (zfill 8 (hexToChars (16777216 * 1 + 65536 * 2 + 256 * 3 + 4))) ∧
      net.core.hexS.data.length = 8 ∧
      net.core.hexS.data.all isHexLower = true :=
  C5_dec_hex 1 2 3 4 true true true true (by decide) (by decide) (by decide) (by decide)

theorem not_dot_cond {cs : List Char} (hdot : ∀ x ∈ cs, x ≠ '.') :
    ¬ (cs.contains '.' = true) := by
  rw [contains_eq_false_of hdot]
  simp

theorem mkSlashFreeCore_maskLen (cs : List Char) (fq fb fd fh : Bool)
    (hdot : ∀ x ∈ cs, x ≠ '.') (hne : cs ≠ []) (hall : cs.all isDig = true)
    (hlen : cs.length ≤ 10) (h1 : 1 ≤ decVal cs) (h2 : decVal cs ≤ 32) :
    ∃ c, mkSlashFreeCore cs fq fb fd fh = Except.ok c ∧
      c.raw = bytes32 (2 ^ 32 - 2 ^ (32 - decVal cs)) := by
  unfold mkSlashFreeCore
  rw [if_neg (not_dot_cond hdot)]
  rw [if_pos ⟨hlen, any_of_all_ne_nil hne hall, hall⟩]
  rw [if_pos h2]
  unfold bits2int pyIntOpt
  rw [if_pos ⟨hne, hall⟩]
  dsimp only
  rw [if_pos ⟨h1, h2⟩]
  dsimp only
  rw [binVal_mask h2]
  have hpos : 0 < 2 ^ (32 - decVal cs) := pow_pos (by omega) _
  have h32 : (2 : Nat) ^ 32 = 4294967296 := by norm_num
  have hlt : 2 ^ 32 - 2 ^ (32 - decVal cs) < 4294967296 := by
    rw [h32]
    omega
  rw [coreOfBase_spec (inet_aton_single hlt) fq fb fd fh]
  exact ⟨_, rfl, rfl⟩

/-- Counterexample to C2 as stated: the all-digit token `0` (value outside
`[1,32]`) is not used as a literal decimal address 0.0.0.0 — the code sends
every value at most 32 into `bits2int`, which rejects 0; and the all-digit
token `077` (value 77, outside `[1,32]`) is not read as decimal 77 but as
octal 63 by the address parser. -/
theorem C2_counterexample :
    (mkNet ("0") true true true true).map (fun n => n.core.raw) ≠ Except.ok [0, 0, 0, 0] ∧
    (mkNet ("077") true true true true).map (fun n => n.core.raw) ≠ Except.ok [0, 0, 0, 77] ∧
    mkNet ("0") true true true true = Except.error
      (NetError.invalidFormat ("Invalid netmask, outside of 1 <= m <= 32 range: 0")) ∧
    (mkNet ("077") true true true true).map (fun n => n.core.raw) = Except.ok [0, 0, 0, 63] := by
  exact ⟨by decide, by decide, by decide, by decide⟩

/-- C2 (amended): for a slash-free, dot-free specification: an all-digit
token of length at most 10 is expanded as a mask length when its value is
in `[1,32]`; when its value is 0 construction fails with the invalid-netmask
`invalidFormat` error (it is still routed to `bits2int`, not used as a
literal address); when its value exceeds 32 the digit string itself is the
base handed to the address parser (which reads it as decimal, or octal for
a leading zero), so `256` parses as 0.0.1.0; and a hex token of length at
most 8 that is not all digits parses as that hex value, so `ff` parses as
0.0.0.255. -/
theorem C2_amended (s : String) (fq fb fd fh : Bool)
    (hslash : ∀ x ∈ s.data, x ≠ '/') (hdot : ∀ x ∈ s.data, x ≠ '.') :
    (s.data ≠ [] → s.data.all isDig = true → s.data.length ≤ 10 →
      ((1 ≤ decVal s.data → decVal s.data ≤ 32 →
        ∃ net, mkNet s fq fb fd fh = Except.ok net ∧
          net.core.raw = bytes32 (2 ^ 32 - 2 ^ (32 - decVal s.data)) ∧
          net.mask = none) ∧
       (decVal s.data = 0 →
        mkNet s fq fb fd fh = Except.error (NetError.invalidFormat
          (("Invalid netmask, outside of 1 <= m <= 32 range: ") ++ ("0")))) ∧
       (32 < decVal s.data →
        mkNet s fq fb fd fh = (coreOfBase s.data fq fb fd fh).map
          (fun c => { core := c, mask := none, masked := none })))) ∧
    (s.data.length ≤ 8 → s.data.all isHexC = true → s.data.all isDig = false →
      ∃ net, mkNet s fq fb fd fh = Except.ok net ∧
        net.core.raw = bytes32 (hexVal s.data) ∧ net.mask = none) ∧
    (mkNet ("256") true true true true).map (fun n => n.core.raw) = Except.ok [0, 0, 1, 0] ∧
    (mkNet ("ff") true true true true).map (fun n => n.core.raw) = Except.ok [0, 0, 0, 255] := by
  have hredux := mkNet_noSlash fq fb fd fh hslash
  refine ⟨?_, ?_, by decide, by decide⟩
  · intro hne hall hlen
    refine ⟨?_, ?_, ?_⟩
    · intro h1 h2
      obtain ⟨c, hc, hraw⟩ := mkSlashFreeCore_maskLen s.data fq fb fd fh hdot hne hall hlen h1 h2
      refine ⟨{ core := c, mask := none, masked := none }, ?_, hraw, rfl⟩
      rw [hredux, hc]
    · intro hv0
      rw [hredux]
      have hsl : mkSlashFreeCore s.data fq fb fd fh = Except.error (NetError.invalidFormat
          (("Invalid netmask, outside of 1 <= m <= 32 range: ") ++ ("0"))) := by
        unfold mkSlashFreeCore
        rw [if_neg (not_dot_cond hdot)]
        rw [if_pos ⟨hlen, any_of_all_ne_nil hne hall, hall⟩]
        rw [if_pos (by omega)]
        unfold bits2int pyIntOpt
        rw [if_pos ⟨hne, hall⟩]
        dsimp only
        rw [hv0]
        rw [if_neg (by omega)]
        have hmsg : String.mk (decToChars 0) = ("0") := by decide
        rw [hmsg]
      rw [hsl]
    · intro h32
      rw [hredux]
      have hsl : mkSlashFreeCore s.data fq fb fd fh = coreOfBase s.data fq fb fd fh := by
        unfold mkSlashFreeCore
        rw [if_neg (not_dot_cond hdot)]
        rw [if_pos ⟨hlen, any_of_all_ne_nil hne hall, hall⟩]
        rw [if_neg (by omega)]
      rw [hsl]
      rcases hcb : coreOfBase s.data fq fb fd fh with e | c <;> rfl
  · intro hlen hhex hnotall
    rw [hredux]
    have hcontra : ¬ (s.data.length ≤ 10 ∧ s.data.any isDig = true ∧
        s.data.all isDig = true) := by
      intro hcond
      rw [hnotall] at hcond
      exact absurd hcond.2.2 (by simp)
    have hsl : mkSlashFreeCore s.data fq fb fd fh =
        coreOfBase ('0' :: 'x' :: s.data) fq fb fd fh := by
      unfold mkSlashFreeCore
      rw [if_neg (not_dot_cond hdot)]
      rw [if_neg hcontra]
      rw [if_pos ⟨hlen, hhex⟩]
    rw [hsl]
    have haton : inet_aton ('0' :: 'x' :: s.data) = some (bytes32 (hexVal s.data)) := by
      unfold inet_aton
      rw [splitOnC_single '.' _ ?_]
      · simp only [parseParts]
        have hpp : parsePart ('0' :: 'x' :: s.data) = some (hexVal s.data) := by
          simp only [parsePart, if_true]
          rw [if_pos hhex]
        rw [hpp]
        dsimp only
        have hlt : hexVal s.data < 4294967296 := by
          have hb := hexVal_lt s.data
          have hle : (16 : Nat) ^ s.data.length ≤ 16 ^ 8 :=
            Nat.pow_le_pow_right (by omega) hlen
          have h168 : (16 : Nat) ^ 8 = 4294967296 := by norm_num
          omega
        rw [if_pos hlt]
      · intro x hx
        rcases hx with _ | ⟨_, hx2⟩
        · decide
        · rcases hx2 with _ | ⟨_, hx3⟩
          · decide
          · exact hdot x hx3
    rw [coreOfBase_spec haton fq fb fd fh]
    exact ⟨_, rfl, rfl, rfl⟩

/-- Witness for the amended C2 at the concrete input `24` (a mask length). -/
theorem C2_amended_witness :
    ∃ net, mkNet ("24") true true true true = Except.ok net ∧
      net.core.raw = bytes32 (2 ^ 32 - 2 ^ (32 - decVal ("24").data)) ∧ net.mask = none :=
  ((C2_amended ("24") true true true true (by decide) (by decide)).1
    (by decide) (by decide) (by decide)).1 (by decide) (by decide)

/-- Counterexample to C1 as stated: in `24/8` the base `24` is not expanded
as a mask length (which would give raw bytes 255.255.255.0) but passed
straight to the address parser, giving 0.0.0.24; and the base `ff` of
`ff/8` is not prefixed as hex — address parsing fails. -/
theorem C1_counterexample :
    (mkNet ("24/8") true true true true).map (fun n => n.core.raw) = Except.ok [0, 0, 0, 24] ∧
    (mkNet ("24/8") true true true true).map (fun n => n.core.raw) ≠
      Except.ok [255, 255, 255, 0] ∧
    mkNet ("ff/8") true true true true = Except.error (NetError.invalidAddress ("ff")) := by
  exact ⟨by decide, by decide, by decide⟩

/-- C1 (amended): for a specification with exactly one `/`, construction
splits it at the `/`, recursively constructs the mask from the part after
the `/` by the slash-free dispatch, and passes the base before the `/`
directly to dotted-quad/numeric address parsing — without the slash-free
normalization (no mask-length expansion, no hex prefixing) — then computes
the masked result by the AND operation. -/
theorem C1_amended (s : String) (fq fb fd fh : Bool) (net : Net)
    (hcount : s.data.count '/' = 1) (h : mkNet s fq fb fd fh = Except.ok net) :
    ∃ m k, net.mask = some m ∧ net.masked = some k ∧
      mkSlashFreeCore ((s.data.dropWhile (fun x => x != '/')).tail) fq fb fd fh =
        Except.ok m ∧
      inet_aton (s.data.takeWhile (fun x => x != '/')) = some net.core.raw ∧
      coreAnd net.core m = Except.ok k := by
  rcases mkNet_ok_elim h with ⟨h0, _⟩ | ⟨_, m, c, k, hm, hcb, hk, rfl⟩
  · exact absurd hcount (by omega)
  · obtain ⟨bs, haton, hraw, _⟩ := coreOfBase_ok_elim hcb
    refine ⟨m, k, rfl, rfl, hm, ?_, hk⟩
    show inet_aton (s.data.takeWhile (fun x => x != '/')) = some c.raw
    rw [hraw]
    exact haton

set_option maxRecDepth 20000 in
/-- Witness for the amended C1 at the concrete input `1.2.3.4/24`. -/
theorem C1_amended_witness :
    ∃ m k, demoNet.mask = some m ∧ demoNet.masked = some k ∧
      mkSlashFreeCore ((("1.2.3.4/24").data.dropWhile (fun x => x != '/')).tail)
        true true true true = Except.ok m ∧
      inet_aton (("1.2.3.4/24").data.takeWhile (fun x => x != '/')) =
        some demoNet.core.raw ∧
      coreAnd demoNet.core m = Except.ok k :=
  C1_amended ("1.2.3.4/24") true true true true demoNet (by decide) (by decide)

theorem takeWhile_append_cons {p : Char → Bool} {xs ys : List Char} {c : Char}
    (hx : ∀ x ∈ xs, p x = true) (hc : p c = false) :
    (xs ++ c :: ys).takeWhile p = xs := by
  induction xs with
  | nil => simp [List.takeWhile, hc]
  | cons h t ih =>
    simp only [List.cons_append, List.takeWhile]
    rw [hx h (by simp)]
    have := ih (fun x hm => hx x (by simp [hm]))
    simp only [List.append_eq] at this ⊢
    rw [this]

theorem dropWhile_append_cons {p : Char → Bool} {xs ys : List Char} {c : Char}
    (hx : ∀ x ∈ xs, p x = true) (hc : p c = false) :
    (xs ++ c :: ys).dropWhile p = c :: ys := by
  induction xs with
  | nil => simp [List.dropWhile, hc]
  | cons h t ih =>
    simp only [List.cons_append, List.dropWhile]
    rw [hx h (by simp)]
    have := ih (fun x hm => hx x (by simp [hm]))
    simp only [List.append_eq] at this ⊢
    rw [this]

theorem mem_ntoa_quad (a b c d : Nat) :
    ∀ x ∈ inet_ntoa [a, b, c, d], x = '.' ∨ isDig x = true := by
  intro x hx
  unfold inet_ntoa at hx
  rcases mem_joinSep hx with hsep | ⟨p, hp, hxp⟩
  · left; simpa using hsep
  · right
    simp only [List.mem_map, List.mem_cons, List.not_mem_nil, or_false] at hp
    obtain ⟨n, _, rfl⟩ := hp
    exact List.all_eq_true.mp (decToChars_all_isDig n) x hxp

/-- C4: for every address given as a dotted quad of octets `a.b.c.d` and
every mask length `N` in `[1,32]`, constructing `a.b.c.d/N` produces a mask
whose decimal 32-bit big-endian value is `2^32 - 2^(32-N)` and a masked
result whose raw bytes are the position-wise AND of the address bytes and
the mask bytes. -/
theorem C4_mask_and (a b c d N : Nat) (fq fb fd fh : Bool)
    (ha : a < 256) (hb : b < 256) (hc : c < 256) (hd : d < 256)
    (hN1 : 1 ≤ N) (hN2 : N ≤ 32) :
    ∃ net m k,
      mkNet (String.mk (inet_ntoa [a, b, c, d] ++ '/' :: decToChars N)) fq fb fd fh =
        Except.ok net ∧
      net.mask = some m ∧ natOfBytes m.raw = 2 ^ 32 - 2 ^ (32 - N) ∧
      net.core.raw = [a, b, c, d] ∧ net.masked = some k ∧
      (∀ i, i < 4 → k.raw.getD i 0 = net.core.raw.getD i 0 &&& m.raw.getD i 0) := by
  have hquad := mem_ntoa_quad a b c d
  have hXp : ∀ x ∈ inet_ntoa [a, b, c, d], (x != '/') = true := by
    intro x hx
    rw [bne_iff_ne]
    rcases hquad x hx with h1 | h1
    · subst h1; decide
    · exact isDig_ne_slash h1
  have hslashF : (('/' : Char) != '/') = false := by decide
  have hdata : (String.mk (inet_ntoa [a, b, c, d] ++ '/' :: decToChars N)).data =
      inet_ntoa [a, b, c, d] ++ '/' :: decToChars N := rfl
  have hcount :
      List.count '/' ((String.mk (inet_ntoa [a, b, c, d] ++ '/' :: decToChars N)).data) = 1 := by
    rw [hdata, List.count_append]
    have h0 : List.count '/' (inet_ntoa [a, b, c, d]) = 0 := by
      rw [List.count_eq_zero]
      intro hmem
      rcases hquad '/' hmem with h1 | h1
      · exact absurd h1 (by decide)
      · exact absurd h1 (by decide)
    have h1 : List.count '/' ('/' :: decToChars N) = 1 := by
      rw [List.count_cons_self]
      rw [List.count_eq_zero.mpr (fun hmem => ne_slash_of_decToChars '/' hmem rfl)]
    rw [h0, h1]
  have hvv : decVal (decToChars N) = N := decVal_decToChars N
  obtain ⟨mc, hmc, hmraw⟩ := mkSlashFreeCore_maskLen (decToChars N) fq fb fd fh
    ne_dot_of_decToChars (decToChars_ne_nil N) (decToChars_all_isDig N)
    (le_trans (decToChars_length (show N < 10 ^ 2 by omega) (by omega)) (by omega))
    (by rw [hvv]; exact hN1) (by rw [hvv]; exact hN2)
  obtain ⟨bc, hbc, hbcraw⟩ : ∃ bc, coreOfBase (inet_ntoa [a, b, c, d]) fq fb fd fh =
      Except.ok bc ∧ bc.raw = [a, b, c, d] := by
    rw [coreOfBase_spec (inet_aton_ntoa ha hb hc hd) fq fb fd fh]
    exact ⟨_, rfl, rfl⟩
  have hbc4 : bc.raw.length = 4 := by rw [hbcraw]; rfl
  have hbcB : ∀ x ∈ bc.raw, x < 256 := by
    rw [hbcraw]
    intro x hx
    simp only [List.mem_cons, List.not_mem_nil, or_false] at hx
    rcases hx with h1 | h1 | h1 | h1 <;> subst h1 <;> omega
  obtain ⟨k, hkk, hkraw, _⟩ := coreAnd_spec hbc4 hbcB (b := mc)
  refine ⟨{ core := bc, mask := some mc, masked := some k }, mc, k, ?_, rfl, ?_, hbcraw,
    rfl, ?_⟩
  · rw [mkNet_oneSlash fq fb fd fh hcount]
    rw [hdata]
    rw [dropWhile_append_cons hXp hslashF, takeWhile_append_cons hXp hslashF]
    dsimp only [List.tail_cons]
    rw [hmc]
    dsimp only
    rw [hbc]
    dsimp only
    rw [hkk]
  · rw [hmraw, hvv]
    have hpos : 0 < 2 ^ (32 - N) := pow_pos (by omega) _
    have h32 : (2 : Nat) ^ 32 = 4294967296 := by norm_num
    apply natOfBytes_bytes32
    rw [h32]
    omega
  · intro i hi
    dsimp only
    rw [hkraw, getD_map_range _ hi]

set_option maxRecDepth 20000 in
/-- Witness for C4 at the concrete address 1.2.3.4 and mask length 24. -/
theorem C4_mask_and_witness :
    ∃ net m k,
      mkNet (String.mk (inet_ntoa [1, 2, 3, 4] ++ '/' :: decToChars 24)) true true true true =
        Except.ok net ∧
      net.mask = some m ∧ natOfBytes m.raw = 2 ^ 32 - 2 ^ (32 - 24) ∧
      net.core.raw = [1, 2, 3, 4] ∧ net.masked = some k ∧
      (∀ i, i < 4 → k.raw.getD i 0 = net.core.raw.getD i 0 &&& m.raw.getD i 0) :=
  C4_mask_and 1 2 3 4 24 true true true true (by decide) (by decide) (by decide) (by decide)
    (by decide) (by decide)
